import Mathlib

/-!
Verification of the caseless filesystem resolver (`src/caseless.rs`).

The resolver wraps an inner storage backend (the `Store` trait) and resolves
paths case-insensitively: valid-UTF-8 path components are compared with
ASCII-only case folding, invalid-UTF-8 components are compared raw.

Embedding notes.  OS strings are modelled as either valid text (a sequence of
Unicode scalar values, as `List Nat`) or raw invalid-UTF-8 bytes; `to_str`
succeeds exactly on the `text` constructor.  Paths are sequences of parsed
components (`Rust std::path::Component`); `PathBuf::new()` is `[]`,
`Path::new("/")` is `[Component.rootDir]`, and `path.push(name)` appends a
`normal` component.  Backend calls are made observable by pairing every
result with the trace of calls issued, in order.  A `panic!` is modelled as
the `none` outcome.
-/

namespace MiniFs

/-- Raw bytes of an OS string that is not valid UTF-8. -/
abbrev Bytes := List Nat

/-- An `OsString`: either valid text (`to_str` returns `Some`, carrying the
scalar values) or raw invalid-UTF-8 bytes (`to_str` returns `None`). -/
inductive OsStr where
  | text (s : List Nat)
  | raw (b : Bytes)
deriving DecidableEq, Repr

/-- A parsed path component, mirroring `std::path::Component`. -/
inductive Component where
  | prefixComp (p : OsStr)
  | rootDir
  | curDir
  | parentDir
  | normal (name : OsStr)
deriving DecidableEq, Repr

/-- A path as its sequence of components. -/
abbrev PathT := List Component

/-- A directory entry produced by the backend's listing: carries a raw name. -/
structure Entry where
  name : OsStr
deriving DecidableEq, Repr

/-- An `io::Error`, abstracted to its kind. -/
inductive ErrKind where
  | notFound
  | permissionDenied
  | other (code : Nat)
deriving DecidableEq, Repr

/-- Modelled from the spec: the storage backend capability (the `Store`
trait, whose definition is outside `src/`): exact-match open and
directory-entry listing, where listing may fail as a whole or per entry. -/
structure Store (F : Type) where
  openPath : PathT → Except ErrKind F
  entriesPath : PathT → Except ErrKind (List (Except ErrKind Entry))

/-- One observable backend call: an exact open or a directory listing. -/
inductive Call where
  | openP (p : PathT)
  | entriesP (p : PathT)
deriving DecidableEq, Repr

/-- Models `char::to_ascii_lowercase` on a scalar value: shift A-Z down to a-z. -/
def asciiLowerNat (c : Nat) : Nat :=
  if 65 ≤ c ∧ c ≤ 90 then c + 32 else c

/-- Models `str::to_ascii_lowercase`. -/
def to_ascii_lowercase (s : List Nat) : List Nat :=
  s.map asciiLowerNat

/-- The inner entry loop of `find_next_ascii_lowercase` when the target is
valid text: skip failed entries and raw-named entries, keep entries whose
text name equals the target after ASCII lowercasing, pushing the entry's
own name onto the candidate path. -/
def entriesMatchesText (t : List Nat) (path : PathT) :
    List (Except ErrKind Entry) → List PathT
  | [] => []
  | Except.error _ :: es => entriesMatchesText t path es
  | Except.ok entry :: es =>
    match entry.name with
    | OsStr.raw _ => entriesMatchesText t path es
    | OsStr.text e =>
      if to_ascii_lowercase t = to_ascii_lowercase e then
        (path ++ [Component.normal (OsStr.text e)]) :: entriesMatchesText t path es
      else
        entriesMatchesText t path es

/-- The inner entry loop of `find_next_ascii_lowercase` when the target is
not valid text: skip failed entries, keep entries whose raw name is
byte-identical to the target. -/
def entriesMatchesRaw (target : OsStr) (path : PathT) :
    List (Except ErrKind Entry) → List PathT
  | [] => []
  | Except.error _ :: es => entriesMatchesRaw target path es
  | Except.ok entry :: es =>
    if entry.name = target then
      (path ++ [Component.normal entry.name]) :: entriesMatchesRaw target path es
    else
      entriesMatchesRaw target path es

/-- The candidate loop of the `compare utf8` branch: one listing call per
candidate path; a failed listing contributes no candidates. -/
def nextText {F : Type} (fs : Store F) (t : List Nat) :
    List PathT → List PathT × List Call
  | [] => ([], [])
  | path :: rest =>
    let contrib :=
      match fs.entriesPath path with
      | Except.ok entries => entriesMatchesText t path entries
      | Except.error _ => []
    let r := nextText fs t rest
    (contrib ++ r.1, Call.entriesP path :: r.2)

/-- The candidate loop of the `compare raw` branch: one listing call per
candidate path; a failed listing contributes no candidates. -/
def nextRaw {F : Type} (fs : Store F) (target : OsStr) :
    List PathT → List PathT × List Call
  | [] => ([], [])
  | path :: rest =>
    let contrib :=
      match fs.entriesPath path with
      | Except.ok entries => entriesMatchesRaw target path entries
      | Except.error _ => []
    let r := nextRaw fs target rest
    (contrib ++ r.1, Call.entriesP path :: r.2)

/-- Source function `find_next_ascii_lowercase`: expands the candidate set by one component.
`none` models the `panic!` on an unexpected component kind.  The second
projection is the trace of backend calls issued. -/
def find_next_ascii_lowercase {F : Type} (fs : Store F) (component : Component)
    (paths : List PathT) : Option (List PathT) × List Call :=
  match component with
  | Component.normal target =>
    match target with
    | OsStr.text t =>
      let r := nextText fs t paths
      (some r.1, r.2)
    | OsStr.raw b =>
      let r := nextRaw fs (OsStr.raw b) paths
      (some r.1, r.2)
  | Component.rootDir => (some [[Component.rootDir]], [])
  | _ => (none, [])

/-- The loop of `CaselessFs::find` over the normalized components: expand
the candidate set component by component, returning early as soon as it
becomes empty. -/
def findFrom {F : Type} (fs : Store F) :
    List Component → List PathT → Option (List PathT) × List Call
  | [], paths => (some paths, [])
  | c :: rest, paths =>
    match find_next_ascii_lowercase fs c paths with
    | (none, calls) => (none, calls)
    | (some next, calls) =>
      if next.length = 0 then (some next, calls)
      else
        let r := findFrom fs rest next
        (r.1, calls ++ r.2)

/-- Source function `CaselessFs::find`.  Here `np` is the external path normalizer
(`crate::index::normalize_path`, modelled from the spec as an abstract
canonicalization since its code is outside `src/`).  The candidate set
starts as the single empty path. -/
def find {F : Type} (fs : Store F) (np : PathT → List Component) (p : PathT) :
    Option (List PathT) × List Call :=
  findFrom fs (np p) [([] : PathT)]

/-- Source function `CaselessFs::open_path`: try the exact path; on failure fall back to
`find` and open only the first candidate, or synthesize `NotFound` when
there is none.  `none` models a panic propagating out of `find`. -/
def open_path {F : Type} (fs : Store F) (np : PathT → List Component)
    (p : PathT) : Option (Except ErrKind F) × List Call :=
  match fs.openPath p with
  | Except.ok f => (some (Except.ok f), [Call.openP p])
  | Except.error _ =>
    match find fs np p with
    | (none, calls) => (none, Call.openP p :: calls)
    | (some [], calls) =>
      (some (Except.error ErrKind.notFound), Call.openP p :: calls)
    | (some (q :: _), calls) =>
      (some (fs.openPath q), Call.openP p :: calls ++ [Call.openP q])

/-- The spec's ASCII-only case folding on single scalar values: equal, or an
A-Z letter paired with its a-z counterpart; no other folding. -/
def foldsEqChar (a b : Nat) : Prop :=
  a = b ∨ (65 ≤ a ∧ a ≤ 90 ∧ b = a + 32) ∨ (65 ≤ b ∧ b ≤ 90 ∧ a = b + 32)

/-- The spec's ASCII-only case folding on names: letter-by-letter. -/
def asciiFoldEq (s u : List Nat) : Prop :=
  List.Forall₂ foldsEqChar s u

/-- The spec's invariant reading of a backend-verified candidate: the path
extends a parent by one named component that an actual successful listing of
that parent reported as an entry. -/
def verifiedEntry {F : Type} (fs : Store F) (q : PathT) : Prop :=
  ∃ p n entries, q = p ++ [Component.normal n] ∧
    fs.entriesPath p = Except.ok entries ∧ Except.ok (Entry.mk n) ∈ entries

/-- A candidate admissible at some stage of the traversal: the initial empty
path, the root path, or a backend-verified entry. -/
def stageOK {F : Type} (fs : Store F) (q : PathT) : Prop :=
  q = [] ∨ q = [Component.rootDir] ∨ verifiedEntry fs q

/-- A concrete backend on which every call fails, for concrete runs. -/
def emptyStore : Store Nat where
  openPath := fun _ => Except.error ErrKind.notFound
  entriesPath := fun _ => Except.error ErrKind.notFound

/-- A concrete backend on which every exact open succeeds, for concrete runs. -/
def okStore : Store Nat where
  openPath := fun _ => Except.ok 7
  entriesPath := fun _ => Except.error ErrKind.notFound

/-- ASCII lowercasing identifies two scalar values exactly when they are
equal or an A-Z / a-z case pair. -/
theorem asciiLowerNat_eq_iff (a b : Nat) :
    asciiLowerNat a = asciiLowerNat b ↔ foldsEqChar a b := by
  unfold asciiLowerNat foldsEqChar
  split_ifs <;> omega

/-- ASCII lowercasing identifies two names exactly when they agree
letter-by-letter up to ASCII case. -/
theorem to_ascii_lowercase_eq_iff (s u : List Nat) :
    to_ascii_lowercase s = to_ascii_lowercase u ↔ asciiFoldEq s u := by
  induction s generalizing u with
  | nil =>
    cases u <;> simp [to_ascii_lowercase, asciiFoldEq]
  | cons a s ih =>
    cases u with
    | nil => simp [to_ascii_lowercase, asciiFoldEq]
    | cons b u =>
      simp only [to_ascii_lowercase, List.map_cons, List.cons.injEq, asciiFoldEq,
        List.forall₂_cons]
      exact and_congr (asciiLowerNat_eq_iff a b)
        (by simpa [to_ascii_lowercase, asciiFoldEq] using ih u)


theorem mem_entriesMatchesText (t : List Nat) (path : PathT)
    (es : List (Except ErrKind Entry)) (q : PathT) :
    q ∈ entriesMatchesText t path es ↔
      ∃ e, Except.ok (Entry.mk (OsStr.text e)) ∈ es ∧
        to_ascii_lowercase t = to_ascii_lowercase e ∧
        q = path ++ [Component.normal (OsStr.text e)] := by
  induction es with
  | nil => simp [entriesMatchesText]
  | cons x es ih =>
    cases x with
    | error err =>
      simp [entriesMatchesText, ih]
    | ok entry =>
      obtain ⟨name⟩ := entry
      cases name with
      | raw b =>
        simp [entriesMatchesText, ih]
      | text e0 =>
        by_cases h : to_ascii_lowercase t = to_ascii_lowercase e0
        · simp only [entriesMatchesText, if_pos h, List.mem_cons, ih]
          constructor
          · rintro (rfl | ⟨e, he, hl, rfl⟩)
            · exact ⟨e0, Or.inl rfl, h, rfl⟩
            · exact ⟨e, Or.inr he, hl, rfl⟩
          · rintro ⟨e, (he | he), hl, rfl⟩
            · obtain rfl : e = e0 := by simpa using he
              exact Or.inl rfl
            · exact Or.inr ⟨e, he, hl, rfl⟩
        · simp only [entriesMatchesText, if_neg h, List.mem_cons, ih]
          constructor
          · rintro ⟨e, he, hl, rfl⟩
            exact ⟨e, Or.inr he, hl, rfl⟩
          · rintro ⟨e, (he | he), hl, rfl⟩
            · obtain rfl : e = e0 := by simpa using he
              exact absurd hl h
            · exact ⟨e, he, hl, rfl⟩

theorem mem_entriesMatchesRaw (target : OsStr) (path : PathT)
    (es : List (Except ErrKind Entry)) (q : PathT) :
    q ∈ entriesMatchesRaw target path es ↔
      Except.ok (Entry.mk target) ∈ es ∧
        q = path ++ [Component.normal target] := by
  induction es with
  | nil => simp [entriesMatchesRaw]
  | cons x es ih =>
    cases x with
    | error err =>
      simp [entriesMatchesRaw, ih]
    | ok entry =>
      obtain ⟨name⟩ := entry
      by_cases h : name = target
      · subst h
        simp [entriesMatchesRaw, ih]
      · simp [entriesMatchesRaw, h, Ne.symm h, ih]


theorem mem_nextText {F : Type} (fs : Store F) (t : List Nat)
    (paths : List PathT) (q : PathT) :
    q ∈ (nextText fs t paths).1 ↔
      ∃ p ∈ paths, ∃ entries, fs.entriesPath p = Except.ok entries ∧
        q ∈ entriesMatchesText t p entries := by
  induction paths with
  | nil => simp [nextText]
  | cons path rest ih =>
    simp only [nextText, List.mem_append, ih, List.mem_cons]
    cases h : fs.entriesPath path with
    | ok entries =>
      constructor
      · rintro (hq | ⟨p, hp, es, hes, hq⟩)
        · exact ⟨path, Or.inl rfl, entries, h, hq⟩
        · exact ⟨p, Or.inr hp, es, hes, hq⟩
      · rintro ⟨p, (rfl | hp), es, hes, hq⟩
        · rw [h] at hes
          obtain rfl : es = entries := (Except.ok.inj hes).symm
          exact Or.inl hq
        · exact Or.inr ⟨p, hp, es, hes, hq⟩
    | error err =>
      constructor
      · rintro (hq | ⟨p, hp, es, hes, hq⟩)
        · exact absurd hq (by simp)
        · exact ⟨p, Or.inr hp, es, hes, hq⟩
      · rintro ⟨p, (rfl | hp), es, hes, hq⟩
        · rw [h] at hes
          exact absurd hes (by simp)
        · exact Or.inr ⟨p, hp, es, hes, hq⟩

theorem mem_nextRaw {F : Type} (fs : Store F) (target : OsStr)
    (paths : List PathT) (q : PathT) :
    q ∈ (nextRaw fs target paths).1 ↔
      ∃ p ∈ paths, ∃ entries, fs.entriesPath p = Except.ok entries ∧
        q ∈ entriesMatchesRaw target p entries := by
  induction paths with
  | nil => simp [nextRaw]
  | cons path rest ih =>
    simp only [nextRaw, List.mem_append, ih, List.mem_cons]
    cases h : fs.entriesPath path with
    | ok entries =>
      constructor
      · rintro (hq | ⟨p, hp, es, hes, hq⟩)
        · exact ⟨path, Or.inl rfl, entries, h, hq⟩
        · exact ⟨p, Or.inr hp, es, hes, hq⟩
      · rintro ⟨p, (rfl | hp), es, hes, hq⟩
        · rw [h] at hes
          obtain rfl : es = entries := (Except.ok.inj hes).symm
          exact Or.inl hq
        · exact Or.inr ⟨p, hp, es, hes, hq⟩
    | error err =>
      constructor
      · rintro (hq | ⟨p, hp, es, hes, hq⟩)
        · exact absurd hq (by simp)
        · exact ⟨p, Or.inr hp, es, hes, hq⟩
      · rintro ⟨p, (rfl | hp), es, hes, hq⟩
        · rw [h] at hes
          exact absurd hes (by simp)
        · exact Or.inr ⟨p, hp, es, hes, hq⟩


theorem last_of_append_singleton {α : Type} {l1 l2 : List α} {a b : α}
    (h : l1 ++ [a] = l2 ++ [b]) : a = b := by
  have h2 := congrArg List.reverse h
  simp at h2
  exact h2.1

/-- C1: for a valid-text named segment, the new candidate set receives
(candidate path + entry name) exactly for the valid-text-named entries of
each candidate's successful listing whose name equals the target under
ASCII-only case folding (A-Z with a-z, nothing else); raw-named entries are
skipped. -/
theorem find_text_segment_exact_matches {F : Type} (fs : Store F)
    (t : List Nat) (paths : List PathT) :
    ∃ next,
      (find_next_ascii_lowercase fs (Component.normal (OsStr.text t)) paths).1
        = some next ∧
      ∀ q, q ∈ next ↔
        ∃ p ∈ paths, ∃ entries, fs.entriesPath p = Except.ok entries ∧
          ∃ e, Except.ok (Entry.mk (OsStr.text e)) ∈ entries ∧
            asciiFoldEq t e ∧
            q = p ++ [Component.normal (OsStr.text e)] := by
  refine ⟨(nextText fs t paths).1, rfl, ?_⟩
  intro q
  simp only [mem_nextText, mem_entriesMatchesText, to_ascii_lowercase_eq_iff]

/-- C4: for a named segment whose bytes are not valid text, the new
candidate set receives exactly the listed entries byte-identical to the
target; no case folding applies, so a differently-named raw segment never
enters the candidate set. -/
theorem find_raw_segment_byte_identical {F : Type} (fs : Store F)
    (b : Bytes) (paths : List PathT) :
    ∃ next,
      (find_next_ascii_lowercase fs (Component.normal (OsStr.raw b)) paths).1
        = some next ∧
      (∀ q, q ∈ next ↔
        ∃ p ∈ paths, ∃ entries, fs.entriesPath p = Except.ok entries ∧
          Except.ok (Entry.mk (OsStr.raw b)) ∈ entries ∧
          q = p ++ [Component.normal (OsStr.raw b)]) ∧
      ∀ p (b2 : Bytes), b2 ≠ b →
        p ++ [Component.normal (OsStr.raw b2)] ∉ next := by
  refine ⟨(nextRaw fs (OsStr.raw b) paths).1, rfl, ?_, ?_⟩
  · intro q
    simp only [mem_nextRaw, mem_entriesMatchesRaw]
  · rintro p b2 hne hmem
    rw [mem_nextRaw] at hmem
    obtain ⟨p2, hp2, es, hes, hq⟩ := hmem
    rw [mem_entriesMatchesRaw] at hq
    obtain ⟨hok, heq⟩ := hq
    have := last_of_append_singleton heq
    simp only [Component.normal.injEq, OsStr.raw.injEq] at this
    exact hne this

/-- C6: processing a root-marker component discards the entire current
candidate set, replaces it by the singleton root path, and makes no backend
call. -/
theorem root_marker_resets_candidates {F : Type} (fs : Store F)
    (paths : List PathT) :
    find_next_ascii_lowercase fs Component.rootDir paths
      = (some [[Component.rootDir]], []) := rfl


/-- C2: when the backend opens the exact path, the resolver returns that
result immediately; the trace shows the single exact open and no listing. -/
theorem open_exact_fast_path {F : Type} (fs : Store F)
    (np : PathT → List Component) (p : PathT) (f : F)
    (h : fs.openPath p = Except.ok f) :
    open_path fs np p = (some (Except.ok f), [Call.openP p]) := by
  unfold open_path
  rw [h]

theorem open_exact_fast_path_witness :
    open_path okStore (fun _ => []) ([] : PathT)
      = (some (Except.ok 7), [Call.openP []]) :=
  open_exact_fast_path okStore (fun _ => []) [] 7 rfl

/-- C3: when the exact open fails, the outcome is determined by find alone:
empty candidates synthesize not-found, otherwise only the first candidate is
opened and its backend result returned verbatim; the exact-path error is
discarded either way. -/
theorem open_fallback_result {F : Type} (fs : Store F)
    (np : PathT → List Component) (p : PathT) (e : ErrKind)
    (h : fs.openPath p = Except.error e) :
    ((find fs np p).1 = some [] →
      open_path fs np p
        = (some (Except.error ErrKind.notFound),
           Call.openP p :: (find fs np p).2)) ∧
    (∀ q rest, (find fs np p).1 = some (q :: rest) →
      open_path fs np p
        = (some (fs.openPath q),
           Call.openP p :: (find fs np p).2 ++ [Call.openP q])) := by
  constructor
  · intro hf
    unfold open_path
    rw [h]
    rcases hx : find fs np p with ⟨o, calls⟩
    rw [hx] at hf
    obtain rfl : o = some [] := hf
    simp [hx]
  · intro q rest hf
    unfold open_path
    rw [h]
    rcases hx : find fs np p with ⟨o, calls⟩
    rw [hx] at hf
    obtain rfl : o = some (q :: rest) := hf
    simp [hx]

theorem open_fallback_result_witness :
    open_path emptyStore (fun _ => [Component.rootDir]) ([] : PathT)
      = (some (emptyStore.openPath [Component.rootDir]),
         Call.openP []
           :: (find emptyStore (fun _ => [Component.rootDir]) []).2
           ++ [Call.openP [Component.rootDir]]) :=
  (open_fallback_result emptyStore (fun _ => [Component.rootDir]) []
    ErrKind.notFound rfl).2 [Component.rootDir] [] rfl

/-- C5: as soon as a component yields an empty candidate set, find stops:
the result is empty and the trace ends with that component's calls. -/
theorem find_short_circuit {F : Type} (fs : Store F) (c : Component)
    (rest : List Component) (paths : List PathT)
    (h : (find_next_ascii_lowercase fs c paths).1 = some []) :
    findFrom fs (c :: rest) paths
      = (some [], (find_next_ascii_lowercase fs c paths).2) := by
  rcases hx : find_next_ascii_lowercase fs c paths with ⟨o, calls⟩
  rw [hx] at h
  obtain rfl : o = some [] := h
  simp [findFrom, hx]

theorem find_short_circuit_witness :
    findFrom emptyStore
        [Component.normal (OsStr.text [97]), Component.rootDir] [([] : PathT)]
      = (some [],
         (find_next_ascii_lowercase emptyStore
           (Component.normal (OsStr.text [97])) [([] : PathT)]).2) :=
  find_short_circuit emptyStore (Component.normal (OsStr.text [97]))
    [Component.rootDir] [([] : PathT)] rfl

/-- C7: a failed directory listing contributes zero candidates and failed
entries inside a successful listing are skipped; no backend error escapes. -/
theorem listing_failures_never_escape {F : Type} (fs : Store F)
    (t : List Nat) (b : Bytes) (p : PathT) (rest : List PathT) (err : ErrKind)
    (hp : fs.entriesPath p = Except.error err) :
    ((find_next_ascii_lowercase fs (Component.normal (OsStr.text t)) (p :: rest)).1
      = (find_next_ascii_lowercase fs (Component.normal (OsStr.text t)) rest).1) ∧
    ((find_next_ascii_lowercase fs (Component.normal (OsStr.raw b)) (p :: rest)).1
      = (find_next_ascii_lowercase fs (Component.normal (OsStr.raw b)) rest).1) ∧
    (∀ path es, entriesMatchesText t path (Except.error err :: es)
      = entriesMatchesText t path es) ∧
    (∀ target path es, entriesMatchesRaw target path (Except.error err :: es)
      = entriesMatchesRaw target path es) := by
  refine ⟨?_, ?_, ?_, ?_⟩
  · simp [find_next_ascii_lowercase, nextText, hp]
  · simp [find_next_ascii_lowercase, nextRaw, hp]
  · intro path es
    simp [entriesMatchesText]
  · intro target path es
    simp [entriesMatchesRaw]

theorem listing_failures_never_escape_witness :
    (find_next_ascii_lowercase emptyStore
        (Component.normal (OsStr.text [97])) [([] : PathT)]).1
      = (find_next_ascii_lowercase emptyStore
        (Component.normal (OsStr.text [97])) []).1 :=
  (listing_failures_never_escape emptyStore [97] [200] [] []
    ErrKind.notFound rfl).1

/-- C8 counterexample: an input whose normalized component sequence contains
a current-directory marker does not always make find panic: over a backend
whose listings all fail, the named segment before the marker empties the
candidate set, so find returns the empty set (a value) and the marker is
never processed. -/
theorem bad_component_not_always_panic :
    find emptyStore
        (fun _ => [Component.normal (OsStr.text [97]), Component.curDir])
        ([] : PathT)
      = (some [], [Call.entriesP []]) := rfl

/-- C8 (amended): when the traversal actually reaches a component that is
neither the root marker nor a named segment (the candidate set not having
emptied at an earlier component), find aborts (panics) before any backend
call for that component, rather than returning a value or a recoverable
error; under the normalizer precondition that only root markers and named
segments survive normalization, this abort branch is unreachable. -/
theorem unexpected_component_reached_panics {F : Type} (fs : Store F)
    (c : Component) (rest : List Component) (paths : List PathT)
    (hroot : c ≠ Component.rootDir)
    (hnorm : ∀ n, c ≠ Component.normal n) :
    (findFrom fs (c :: rest) paths = (none, [])) ∧
    (∀ np p, np p = c :: rest → find fs np p = (none, [])) ∧
    (∀ comps ps,
      (∀ d ∈ comps, d = Component.rootDir ∨ ∃ n, d = Component.normal n) →
      ∃ l, (findFrom fs comps ps).1 = some l) := by
  have hbad : ∀ ps : List PathT,
      find_next_ascii_lowercase fs c ps = (none, []) := by
    intro ps
    cases c with
    | prefixComp s => rfl
    | rootDir => exact absurd rfl hroot
    | curDir => rfl
    | parentDir => rfl
    | normal n => exact absurd rfl (hnorm n)
  refine ⟨?_, ?_, ?_⟩
  · simp [findFrom, hbad paths]
  · intro np p hnp
    unfold find
    rw [hnp]
    simp [findFrom, hbad [([] : PathT)]]
  · intro comps
    induction comps with
    | nil => exact fun ps _ => ⟨ps, rfl⟩
    | cons d rest2 ih =>
      intro ps hall
      have hd := hall d (List.mem_cons_self d rest2)
      have hrest : ∀ d2 ∈ rest2,
          d2 = Component.rootDir ∨ ∃ n, d2 = Component.normal n :=
        fun d2 hd2 => hall d2 (List.mem_cons_of_mem d hd2)
      rcases hd with rfl | ⟨n, rfl⟩
      · obtain ⟨l, hl⟩ := ih [[Component.rootDir]] hrest
        exact ⟨l, by simp [findFrom, find_next_ascii_lowercase, hl]⟩
      · cases n with
        | text t =>
          by_cases hlen : (nextText fs t ps).1.length = 0
          · exact ⟨[], by
              simp [findFrom, find_next_ascii_lowercase, hlen,
                List.length_eq_zero.mp hlen]⟩
          · obtain ⟨l, hl⟩ := ih (nextText fs t ps).1 hrest
            exact ⟨l, by simp [findFrom, find_next_ascii_lowercase, hlen, hl]⟩
        | raw b =>
          by_cases hlen : (nextRaw fs (OsStr.raw b) ps).1.length = 0
          · exact ⟨[], by
              simp [findFrom, find_next_ascii_lowercase, hlen,
                List.length_eq_zero.mp hlen]⟩
          · obtain ⟨l, hl⟩ := ih (nextRaw fs (OsStr.raw b) ps).1 hrest
            exact ⟨l, by simp [findFrom, find_next_ascii_lowercase, hlen, hl]⟩

theorem unexpected_component_reached_panics_witness :
    findFrom emptyStore [Component.curDir] [([] : PathT)] = (none, []) :=
  (unexpected_component_reached_panics emptyStore Component.curDir []
    [([] : PathT)] (by decide) (fun n => by simp)).1


theorem find_next_preserves_stageOK {F : Type} (fs : Store F) (c : Component)
    (paths next : List PathT)
    (hx : (find_next_ascii_lowercase fs c paths).1 = some next) :
    ∀ q ∈ next, stageOK fs q := by
  cases c with
  | prefixComp s => simp [find_next_ascii_lowercase] at hx
  | curDir => simp [find_next_ascii_lowercase] at hx
  | parentDir => simp [find_next_ascii_lowercase] at hx
  | rootDir =>
    obtain rfl : next = [[Component.rootDir]] := by
      simpa [find_next_ascii_lowercase] using hx.symm
    intro q hq
    obtain rfl : q = [Component.rootDir] := by simpa using hq
    exact Or.inr (Or.inl rfl)
  | normal n =>
    cases n with
    | text t =>
      obtain rfl : next = (nextText fs t paths).1 := by
        simpa [find_next_ascii_lowercase] using hx.symm
      intro q hq
      rw [mem_nextText] at hq
      obtain ⟨p, hp, es, hes, hq⟩ := hq
      rw [mem_entriesMatchesText] at hq
      obtain ⟨e, he, hl, rfl⟩ := hq
      exact Or.inr (Or.inr ⟨p, OsStr.text e, es, rfl, hes, he⟩)
    | raw b =>
      obtain rfl : next = (nextRaw fs (OsStr.raw b) paths).1 := by
        simpa [find_next_ascii_lowercase] using hx.symm
      intro q hq
      rw [mem_nextRaw] at hq
      obtain ⟨p, hp, es, hes, hq⟩ := hq
      rw [mem_entriesMatchesRaw] at hq
      obtain ⟨he, rfl⟩ := hq
      exact Or.inr (Or.inr ⟨p, OsStr.raw b, es, rfl, hes, he⟩)

/-- C9 (amended): at every stage of the traversal, every candidate is the
initial empty path, the root path produced by a root marker, or a path whose
last component was verified to exist by an actual backend listing of its
parent candidate. -/
theorem find_candidates_backend_verified {F : Type} (fs : Store F)
    (comps : List Component) (paths l : List PathT)
    (h0 : ∀ q ∈ paths, stageOK fs q)
    (h : (findFrom fs comps paths).1 = some l) :
    ∀ q ∈ l, stageOK fs q := by
  induction comps generalizing paths with
  | nil =>
    obtain rfl : paths = l := by simpa [findFrom] using h
    exact h0
  | cons c rest ih =>
    rcases hx : find_next_ascii_lowercase fs c paths with ⟨o, calls⟩
    simp only [findFrom, hx] at h
    cases o with
    | none => simp at h
    | some next =>
      have hnext : ∀ q ∈ next, stageOK fs q :=
        find_next_preserves_stageOK fs c paths next (by rw [hx])
      by_cases hlen : next.length = 0
      · simp [hlen] at h
        obtain rfl : next = l := h
        exact hnext
      · simp [hlen] at h
        exact ih next hnext h

theorem find_candidates_backend_verified_witness :
    stageOK emptyStore ([] : PathT) :=
  find_candidates_backend_verified emptyStore [] [([] : PathT)] [([] : PathT)]
    (by
      intro q hq
      obtain rfl : q = [] := by simpa using hq
      exact Or.inl rfl)
    rfl [] (by simp)

/-- C9 counterexample: after processing a root marker the candidate set is
the singleton root path, and the root path is not an entry verified (or
verifiable) by any backend listing: on a backend whose listings all fail,
no candidate path denotes a listed entry, yet the root candidate remains. -/
theorem root_candidate_not_listing_verified :
    (findFrom emptyStore [Component.rootDir] [([] : PathT)]).1
      = some [[Component.rootDir]] ∧
    ¬ verifiedEntry emptyStore [Component.rootDir] := by
  constructor
  · rfl
  · rintro ⟨p, n, entries, hq, he, hmem⟩
    simp [emptyStore] at he

/-- C10: when normalization yields no components, find returns the singleton
empty path with no backend call, so open falls back to a backend open of the
empty path rather than synthesizing not-found. -/
theorem empty_normalization_opens_empty_path {F : Type} (fs : Store F)
    (np : PathT → List Component) (p : PathT) (e : ErrKind)
    (hnp : np p = []) (he : fs.openPath p = Except.error e) :
    find fs np p = (some [([] : PathT)], []) ∧
    open_path fs np p
      = (some (fs.openPath ([] : PathT)),
         [Call.openP p, Call.openP []]) := by
  have hf : find fs np p = (some [([] : PathT)], []) := by
    unfold find
    rw [hnp]
    rfl
  refine ⟨hf, ?_⟩
  unfold open_path
  rw [he, hf]
  rfl

theorem empty_normalization_opens_empty_path_witness :
    find emptyStore (fun _ => []) ([] : PathT) = (some [([] : PathT)], []) ∧
    open_path emptyStore (fun _ => []) ([] : PathT)
      = (some (emptyStore.openPath ([] : PathT)),
         [Call.openP [], Call.openP []]) :=
  empty_normalization_opens_empty_path emptyStore (fun _ => []) []
    ErrKind.notFound rfl rfl

end MiniFs
